import Mathlib

set_option linter.unusedVariables false
set_option linter.unnecessarySeqFocus false
set_option linter.unnecessarySimpa false

/- Shallow embedding of the streamdeckfs sources (src/streamdeckfs):
the filesystem-name grammar of pages, the CLI platform check and
parameter validators (commands/base.py), and the page lifecycle hooks,
file-event dispatcher, waiting-reference iteration and render compositor
(entities/page.py). Components that live in files outside the provided
sources (deck.py, entities/base.py, key.py, common.py) are modelled from
the specification or passed in as abstract inputs, as noted on each
definition. -/

/-! ## Page naming grammar (entities/page.py) -/

/-- Characters of the literal prefix of the page directory pattern, from
Page.main_path_re, the compiled regex `^(?P<kind>PAGE)_(?P<page>\d+)(?:;|$)`. -/
def pageTag : List Char := ['P', 'A', 'G', 'E', '_']

/-- Base code points of the decades of Unicode decimal digits: each entry
b is the code point of a zero digit, and b, b+1, ..., b+9 are the digits
with decimal values 0-9 of one decade. Together these decades are exactly
the 660 characters of the Unicode category Nd, which is exactly the set
of characters CPython's `\d` matches in a str pattern such as
Page.main_path_re (Unicode character database 14.0.0, as shipped with
CPython 3.11; later Unicode versions add further decades). -/
def ndDigitBases : List Nat := [
  0x30, 0x660, 0x6F0, 0x7C0, 0x966, 0x9E6, 0xA66, 0xAE6, 0xB66, 0xBE6,
  0xC66, 0xCE6, 0xD66, 0xDE6, 0xE50, 0xED0, 0xF20, 0x1040, 0x1090, 0x17E0,
  0x1810, 0x1946, 0x19D0, 0x1A80, 0x1A90, 0x1B50, 0x1BB0, 0x1C40, 0x1C50, 0xA620,
  0xA8D0, 0xA900, 0xA9D0, 0xA9F0, 0xAA50, 0xABF0, 0xFF10, 0x104A0, 0x10D30, 0x11066,
  0x110F0, 0x11136, 0x111D0, 0x112F0, 0x11450, 0x114D0, 0x11650, 0x116C0, 0x11730, 0x118E0,
  0x11950, 0x11C50, 0x11D50, 0x11DA0, 0x16A60, 0x16AC0, 0x16B50, 0x1D7CE, 0x1D7D8, 0x1D7E2,
  0x1D7EC, 0x1D7F6, 0x1E140, 0x1E2F0, 0x1E950, 0x1FBF0]

/-- Python's regex class `\d` on a str pattern: a character matches
exactly when it is a Unicode decimal digit (category Nd), i.e. lies in
one of the digit decades. -/
def isReDigit (c : Char) : Bool :=
  ndDigitBases.any fun b => decide (b ≤ c.toNat ∧ c.toNat ≤ b + 9)

/-- The decimal value Python's int() assigns to a Unicode decimal digit:
its offset inside its decade (0 for characters outside every decade,
which never occur in a matched digits group). -/
def digitVal (c : Char) : Nat :=
  match ndDigitBases.find? (fun b => decide (b ≤ c.toNat ∧ c.toNat ≤ b + 9)) with
  | some b => c.toNat - b
  | none => 0

/-- Terminator group `(?:;|$)` of Page.main_path_re: a `;` may be followed
by anything (re.match only anchors the start), while Python's `$` matches
at the end of the string or just before a single newline ending it. -/
def pageTerminator : List Char → Bool
  | [] => true
  | c :: t => c == ';' || (c == '\n' && t.isEmpty)

/-- Matching Page.main_path_re against a file name. Since the characters
accepted by the terminator are never digits, the regex engine's maximal
munch for `\d+` is the unique possible match, so the digits group is the
longest digit prefix after the tag. Returns the text of the `page` group. -/
def Page.main_path_match (name : List Char) : Option (List Char) :=
  match name with
  | 'P' :: 'A' :: 'G' :: 'E' :: '_' :: t =>
    if t.takeWhile isReDigit ≠ [] ∧ pageTerminator (t.dropWhile isReDigit) = true then
      some (t.takeWhile isReDigit)
    else none
  | _ => none

/-- Value of a digit string, as computed by Python's int(): int() accepts
any string of Unicode decimal digits (decades may even be mixed) and
folds their decimal values in base 10. -/
def digitsToNat (ds : List Char) : Nat :=
  ds.foldl (fun n c => n * 10 + digitVal c) 0

/-- Page.convert_main_args: args["page"] = int(args["page"]), applied to
the text captured by the `page` group. -/
def Page.convert_main_args (ds : List Char) : Nat := digitsToNat ds

/-! ## CLI parameter validation (commands/base.py) -/

/-- Outcome of a click parameter callback: a returned value, a raised
click.BadParameter, or a Python TypeError (None compared with an int, as
`value <= 0` would raise when value is None). -/
inductive ValidateResult
  | ok (value : Option Int)
  | badParameter
  | typeError
  deriving DecidableEq

/-- validate_positive_integer from src/streamdeckfs/commands/base.py. -/
def validate_positive_integer (required : Bool) (value : Option Int) : ValidateResult :=
  if required = false ∧ value = none then ValidateResult.ok none
  else
    match value with
    | none => ValidateResult.typeError
    | some v => if v ≤ 0 then ValidateResult.badParameter else ValidateResult.ok (some v)

/-! ## CLI startup platform check (commands/base.py) -/

/-- What the cli click-group callback does; click runs the group callback
before any subcommand callback, so exitWith happens before any command and
hence before the watch loop starts. -/
inductive CliStartup
  | exitWith (status : Nat)
  | proceed
  deriving DecidableEq

/-- cli from src/streamdeckfs/commands/base.py. Modelled from the spec:
Manager.exit(status, msg) (common.py, not in the provided sources)
terminates the process with the given status; SUPPORTED_PLATFORMS is a
dict whose .get returns None for unknown keys, so the truthiness test
`not SUPPORTED_PLATFORMS.get(PLATFORM)` fails for None and False alike. -/
def cli (supportedPlatforms : String → Option Bool) (platform : String) : CliStartup :=
  if (supportedPlatforms platform).getD false = true then CliStartup.proceed
  else CliStartup.exitWith 1

/-! ## Page lifecycle navigation hooks (entities/page.py) -/

/-- One deck.go_to_page invocation: either a literal page number or the
BACK virtual navigation code. -/
inductive NavRequest
  | toPage (number : Nat)
  | back
  deriving DecidableEq

/-- Python falsiness of deck.current_page_number: None before any page is
shown, or the number 0. -/
def currentPageFalsy : Option Nat → Bool
  | none => true
  | some n => n == 0

/-- Page.version_deactivated: the deck.go_to_page calls it makes, in
order. is_current is captured before the superclass hook runs (which does
not change the deck's current page); a disabled version returns before
unrendering and before any navigation. -/
def Page.version_deactivated (number : Nat) (disabled : Bool)
    (currentPageNumber : Option Nat) : List NavRequest :=
  if disabled then []
  else if currentPageNumber = some number then [NavRequest.back] else []

/-- Page.version_activated: the deck.go_to_page calls it makes, in order.
A disabled version returns before rendering and before any navigation;
otherwise it renders and, when the deck is running and its current page
number is falsy, navigates to its own number. -/
def Page.version_activated (number : Nat) (disabled : Bool) (isRunning : Bool)
    (currentPageNumber : Option Nat) : List NavRequest :=
  if disabled then []
  else if isRunning = true ∧ currentPageFalsy currentPageNumber = true then
    [NavRequest.toPage number]
  else []

/-! ## File event dispatcher (entities/page.py) -/

/-- Result of the superclass Entity.on_file_change call (entities/base.py,
not in the provided sources), abstracted: either the FILE_NOT_AN_EVENT
sentinel or a handled result value. Modelled from the spec: the entity's
own versioning logic may handle the name itself, in which case the page
dispatcher stops and returns that result. -/
inductive SuperResult
  | notAnEvent
  | handled (value : Option Nat)
  deriving DecidableEq

/-- deck.filters.get("key"): the FILTER_DENY sentinel, absent (None), or
an active filter value. -/
inductive KeyFilter
  | deny
  | absent
  | active (f : String)
  deriving DecidableEq

/-- Identifying groups of a matched KEY name (row and col). -/
structure KeyMain where
  row : Nat
  col : Nat
  deriving DecidableEq

/-- Abstraction of Key.parse_filename's four results (key.py, not in the
provided sources): ref_conf, ref and args are opaque identifiers; main
carries the identifying groups when the name is a Key definition. -/
structure ParsedName where
  refConf : Option Nat
  ref : Option Nat
  main : Option KeyMain
  args : Nat
  deriving DecidableEq

/-- Observable effect of one Page.on_file_change call: ignored because the
event is for another directory, handled by the superclass (returning its
result), returning None because the key filter rejects the definition,
forwarding to on_child_entity_change, queuing a waiting reference, or
falling through with no effect. -/
inductive Dispatch
  | ignoredWrongDir
  | superHandled (value : Option Nat)
  | filteredOut
  | childChange (identifier : Nat × Nat) (args : Nat)
  | queuedReference (refConf : Nat)
  | noEffect
  deriving DecidableEq

/-- Page.on_file_change from src/streamdeckfs/entities/page.py. The
superclass handler result, the key filter, Key.parse_filename's result and
Key.args_matching_filter are abstract inputs (their definitions live
outside the provided sources). -/
def Page.on_file_change (selfPath directory : Nat) (superResult : SuperResult)
    (keyFilter : KeyFilter) (entityClassNoneOrKey : Bool) (parsed : ParsedName)
    (argsMatchingFilter : KeyMain → Nat → String → Bool) : Dispatch :=
  if directory ≠ selfPath then Dispatch.ignoredWrongDir
  else
    match superResult with
    | SuperResult.handled v => Dispatch.superHandled v
    | SuperResult.notAnEvent =>
      if keyFilter = KeyFilter.deny then Dispatch.noEffect
      else if entityClassNoneOrKey = false then Dispatch.noEffect
      else
        match parsed.main with
        | some m =>
          match keyFilter with
          | KeyFilter.active f =>
            if argsMatchingFilter m parsed.args f = false then Dispatch.filteredOut
            else Dispatch.childChange (m.row, m.col) parsed.args
          | _ => Dispatch.childChange (m.row, m.col) parsed.args
        | none =>
          match parsed.refConf with
          | some rc => Dispatch.queuedReference rc
          | none => Dispatch.noEffect

/-! ## Waiting reference iteration (entities/page.py) -/

/-- One entry of a waiting_child_references queue for the content class:
its source path, its observing parent, and the "page" field of its
ref_conf (the page filter naming the referenced page). -/
structure WaitingRef where
  path : Nat
  parent : Nat
  refPage : String
  deriving DecidableEq

/-- The page whose creation is being checked: its number and its own
waiting-reference queue for the content class. -/
structure CheckPage where
  number : Nat
  ownQueue : List WaitingRef

/-- The owning deck as seen by iter_waiting_references_for_page: its
global waiting-reference queue for the content class, and deck.find_page
(deck.py, not in the provided sources) abstracted as the number of the
page a page filter resolves to, none when no page matches. -/
structure WDeck where
  deckQueue : List WaitingRef
  findPageNumber : String → Option Nat

/-- PageContent.iter_waiting_references_for_page from
src/streamdeckfs/entities/page.py: yields every own-queue entry of
check_page paired with check_page itself, then every deck-queue entry
whose ref_conf page resolves to a page carrying check_page's number; the
yielded page is encoded by its number. -/
def PageContent.iter_waiting_references_for_page (d : WDeck) (cp : CheckPage) :
    List (Nat × WaitingRef) :=
  cp.ownQueue.map (fun w => (cp.number, w)) ++
    d.deckQueue.filterMap (fun w =>
      match d.findPageNumber w.refPage with
      | some n => if n = cp.number then some (n, w) else none
      | none => none)

/-! ## Render compositor (entities/page.py) -/

/-- One visible page of the overlay chain: its active keys that have
content, in the (row, col)-sorted order iter_keys yields them, each with
the image its key.render() writes, plus the page's overlay transparency. -/
structure VPage where
  keys : List ((Nat × Nat) × Nat)
  transparent : Bool
  deriving DecidableEq

/-- The deck as seen by Page.render. Modelled from the spec (deck.py is
not in the provided sources): chain is the stack of currently visible
pages, top first, so is_page_visible holds exactly for chain members;
get_page_above yields the adjacent chain entry above; get_page_below
yields the adjacent entry below, and only while the page itself is
transparent — a page with zero transparency stops the chain immediately
after itself; nb_keys = nb_rows * nb_cols. -/
structure VDeck where
  nb_rows : Nat
  nb_cols : Nat
  chain : List VPage
  deriving DecidableEq

/-- deck.nb_keys. -/
def VDeck.nb_keys (d : VDeck) : Nat := d.nb_rows * d.nb_cols

/-- One device write issued during rendering, tagged with the index (in
the visible chain) of the page that issued it: a key.render() writing an
image, or deck.remove_image clearing a key. -/
inductive RWrite
  | setImage (pageIdx : Nat) (key : Nat × Nat) (image : Nat)
  | removeImage (pageIdx : Nat) (key : Nat × Nat)
  deriving DecidableEq

/-- The physical key a write targets. -/
def RWrite.key : RWrite → Nat × Nat
  | RWrite.setImage _ k _ => k
  | RWrite.removeImage _ k => k

/-- The chain index of the page that issued a write. -/
def RWrite.pageIdx : RWrite → Nat
  | RWrite.setImage i _ _ => i
  | RWrite.removeImage i _ => i

/-- The image content a write leaves on its key (none = blank). -/
def RWrite.content : RWrite → Option Nat
  | RWrite.setImage _ _ img => some img
  | RWrite.removeImage _ _ => none

/-- Render state threaded through Page.render: the rendered_keys set plus
the device writes issued so far, in order. -/
structure RState where
  rendered : Finset (Nat × Nat)
  writes : List RWrite
  deriving DecidableEq

/-- The per-key loop of Page.render: each key whose (row, col) is not yet
in rendered_keys is rendered (a setImage write) and added to the set. -/
def renderKeys (pageIdx : Nat) : List ((Nat × Nat) × Nat) → RState → RState
  | [], s => s
  | (k, img) :: rest, s =>
    if k ∈ s.rendered then renderKeys pageIdx rest s
    else
      renderKeys pageIdx rest
        ⟨insert k s.rendered, s.writes ++ [RWrite.setImage pageIdx k img]⟩

/-- The final loop of Page.render: each listed key not yet in
rendered_keys gets its image removed and is added to the set. -/
def clearKeys (pageIdx : Nat) : List (Nat × Nat) → RState → RState
  | [], s => s
  | k :: rest, s =>
    if k ∈ s.rendered then clearKeys pageIdx rest s
    else
      clearKeys pageIdx rest
        ⟨insert k s.rendered, s.writes ++ [RWrite.removeImage pageIdx k]⟩

/-- The physical key grid in the order the clearing loop of Page.render
traverses it: rows 1..nb_rows, and for each row, cols 1..nb_cols. -/
def gridList (d : VDeck) : List (Nat × Nat) :=
  (List.range d.nb_rows).flatMap fun r => (List.range d.nb_cols).map fun c => (r + 1, c + 1)

/-- The physical key grid as a set. -/
def gridSet (d : VDeck) : Finset (Nat × Nat) :=
  Finset.Icc 1 d.nb_rows ×ˢ Finset.Icc 1 d.nb_cols

/-- Page.render from src/streamdeckfs/entities/page.py, run for the page
at position i of the visible chain. state? = none models the Python
default rendered_keys=None of the top-level call; recursive calls pass
the shared mutable state, modelled by threading. is_visible holds exactly
for chain members, so the guard is the index bound. The transparency read
via get_page_overlay_level is consulted where get_page_below decides
whether a page below may show through. activate_events is omitted: it
issues no key write and touches no rendered key. -/
def Page.render (d : VDeck) (i : Nat) (renderAbove renderBelow : Bool)
    (state? : Option RState) : RState :=
  let s := state?.getD ⟨∅, []⟩
  if hvis : i < d.chain.length then
    if state?.isSome = true ∧ s.rendered.card = d.nb_keys then s
    else
      let s1 :=
        if hab : renderAbove = true ∧ 0 < i then
          Page.render d (i - 1) true false (some s)
        else s
      let s2 := renderKeys i d.chain[i].keys s1
      if s2.rendered.card = d.nb_keys then s2
      else if hrb : renderBelow = true then
        if hbe : d.chain[i].transparent = true ∧ i + 1 < d.chain.length then
          Page.render d (i + 1) false true (some s2)
        else clearKeys i (gridList d) s2
      else s2
  else s
termination_by
  (if renderAbove = true then i else 0) + (if renderBelow = true then d.chain.length - i else 0)
decreasing_by
  · obtain ⟨h1, h2⟩ := hab
    subst h1
    cases renderBelow <;> simp_all <;> omega
  · obtain ⟨h1, h2⟩ := hbe
    subst hrb
    cases renderAbove <;> simp_all <;> omega

/-- Application of a list of device writes, in order, to a key-to-image
assignment (none = blank/cleared). -/
def applyWrites (a : Nat × Nat → Option Nat) (ws : List RWrite) : Nat × Nat → Option Nat :=
  ws.foldl (fun a w => fun k => if k = w.key then w.content else a k) a

/-- Well-formedness of a deck configuration: every key of every visible
page lies inside the physical key grid (key identifiers are (row, col)
positions of the device grid). -/
def inGrid (d : VDeck) : Prop :=
  ∀ p ∈ d.chain, ∀ kv ∈ p.keys, kv.1 ∈ gridSet d

instance (d : VDeck) : Decidable (inGrid d) := by
  unfold inGrid
  infer_instance

/-- The decimal value of a digit string is zero exactly when the
accumulator is zero and every digit has decimal value zero. -/
theorem foldl_digits_eq_zero :
    ∀ (ds : List Char) (n : Nat),
      List.foldl (fun n c => n * 10 + digitVal c) n ds = 0 ↔
        (n = 0 ∧ ∀ c ∈ ds, digitVal c = 0) := by
  intro ds
  induction ds with
  | nil => intro n; simp
  | cons c t ih =>
    intro n
    rw [List.foldl_cons, ih (n * 10 + digitVal c)]
    constructor
    · rintro ⟨h1, h2⟩
      refine ⟨by omega, fun x hx => ?_⟩
      rcases List.mem_cons.mp hx with h | h
      · subst h
        omega
      · exact h2 x h
    · rintro ⟨h1, h2⟩
      have hc := h2 c (by simp)
      exact ⟨by omega, fun x hx => h2 x (by simp [hx])⟩

theorem main_path_match_digits (name ds : List Char)
    (h : Page.main_path_match name = some ds) : ∀ c ∈ ds, isReDigit c = true := by
  unfold Page.main_path_match at h
  split at h
  · split at h
    · cases h
      exact fun c hc => List.mem_takeWhile_imp hc
    · cases h
  · cases h

theorem takeWhile_append_all (p : Char → Bool) :
    ∀ (l r : List Char), (∀ c ∈ l, p c = true) →
      (∀ c, r.head? = some c → p c = false) →
      (l ++ r).takeWhile p = l ∧ (l ++ r).dropWhile p = r := by
  intro l
  induction l with
  | nil =>
    intro r _ hr
    cases r with
    | nil => simp
    | cons c t =>
      have := hr c rfl
      simp [List.takeWhile, List.dropWhile, this]
  | cons a l ih =>
    intro r hl hr
    have ha := hl a (by simp)
    have := ih r (fun c hc => hl c (by simp [hc])) hr
    simp [List.takeWhile_cons, List.dropWhile_cons, ha, this.1, this.2]

/-- Characters the terminator group can start with are never digits. -/
theorem pageTerminator_head_not_digit (rest : List Char) (h : pageTerminator rest = true) :
    ∀ c, rest.head? = some c → isReDigit c = false := by
  intro c hc
  cases rest with
  | nil => cases hc
  | cons a t =>
    simp only [List.head?_cons, Option.some.injEq] at hc
    subst hc
    simp only [pageTerminator, Bool.or_eq_true, Bool.and_eq_true, beq_iff_eq] at h
    rcases h with h | ⟨h, _⟩ <;> subst h <;> decide

/-- C8 helper: full characterization of the names matched by the page
pattern, together with the captured digits group. -/
theorem main_path_match_iff (name ds : List Char) :
    Page.main_path_match name = some ds ↔
      (ds ≠ [] ∧ (∀ c ∈ ds, isReDigit c = true) ∧
        ∃ rest, name = pageTag ++ ds ++ rest ∧ pageTerminator rest = true) := by
  constructor
  · intro h
    refine ⟨?_, main_path_match_digits name ds h, ?_⟩
    · unfold Page.main_path_match at h
      split at h
      · split at h
        · cases h
          rename_i hcond
          exact hcond.1
        · cases h
      · cases h
    · unfold Page.main_path_match at h
      split at h
      · split at h
        · rename_i t hcond
          cases h
          refine ⟨t.dropWhile isReDigit, ?_, hcond.2⟩
          simp [pageTag, List.takeWhile_append_dropWhile]
        · cases h
      · cases h
  · rintro ⟨hne, hdig, rest, hname, hterm⟩
    subst hname
    have hsplit := takeWhile_append_all isReDigit ds rest hdig
      (pageTerminator_head_not_digit rest hterm)
    simp only [pageTag]
    unfold Page.main_path_match
    simp only [List.cons_append, List.nil_append]
    rw [if_pos]
    · rw [hsplit.1]
    · rw [hsplit.1, hsplit.2]
      exact ⟨hne, hterm⟩

/-- C8 (amended): a file name is matched by Page.main_path_re exactly
when it is PAGE_ followed by a nonempty string of Unicode decimal digits
(the characters of the str pattern's `\d`) terminated by a semicolon, the
end of the name, or a single trailing newline; for a matched name
convert_main_args parses the captured digits with int() into the page's
integer number, and that number is positive exactly when some captured
digit has nonzero decimal value. -/
theorem claim_C8_amended (name ds : List Char) :
    (Page.main_path_match name = some ds ↔
      (ds ≠ [] ∧ (∀ c ∈ ds, isReDigit c = true) ∧
        ∃ rest, name = pageTag ++ ds ++ rest ∧ pageTerminator rest = true)) ∧
    (Page.main_path_match name = some ds →
      (Page.convert_main_args ds = digitsToNat ds ∧
        (0 < Page.convert_main_args ds ↔ ¬ ∀ c ∈ ds, digitVal c = 0))) := by
  constructor
  · exact main_path_match_iff name ds
  · intro h
    refine ⟨rfl, ?_⟩
    have hiff := foldl_digits_eq_zero ds 0
    unfold Page.convert_main_args digitsToNat
    constructor
    · intro hpos hall
      have h0 : List.foldl (fun n c => n * 10 + digitVal c) 0 ds = 0 :=
        hiff.mpr ⟨rfl, hall⟩
      omega
    · intro hnall
      rcases Nat.eq_zero_or_pos
          (List.foldl (fun n c => n * 10 + digitVal c) 0 ds) with h0 | h0
      · exact absurd (hiff.mp h0).2 hnall
      · exact h0

/-- Witness for C8 at the ASCII name PAGE_12;x and at PAGE_๓, whose digit
is the Thai decimal digit three (U+0E53): the Unicode-aware pattern
matches it and int() parses it as 3. -/
theorem claim_C8_witness :
    (Page.main_path_match ['P','A','G','E','_','1','2',';','x'] = some ['1','2'] ∧
      0 < Page.convert_main_args ['1','2']) ∧
    (Page.main_path_match ['P','A','G','E','_','๓'] = some ['๓'] ∧
      0 < Page.convert_main_args ['๓']) := by
  have h12 := claim_C8_amended ['P','A','G','E','_','1','2',';','x'] ['1','2']
  have hth := claim_C8_amended ['P','A','G','E','_','๓'] ['๓']
  have hm12 : Page.main_path_match ['P','A','G','E','_','1','2',';','x'] = some ['1','2'] :=
    h12.1.mpr ⟨by decide, by decide, ⟨[';','x'], by decide, by decide⟩⟩
  have hmth : Page.main_path_match ['P','A','G','E','_','๓'] = some ['๓'] :=
    hth.1.mpr ⟨by decide, by decide, ⟨[], by decide, by decide⟩⟩
  exact ⟨⟨hm12, ((h12.2 hm12).2).mpr (by decide)⟩,
    ⟨hmth, ((hth.2 hmth).2).mpr (by decide)⟩⟩

/-- Counterexample to C8 as stated: PAGE_0 is matched and parses to the
page number 0, which is not positive, and a name with a trailing newline
is matched although it is not terminated by a semicolon or the end of the
name. -/
theorem claim_C8_counterexample :
    Page.main_path_match ['P','A','G','E','_','0'] = some ['0'] ∧
    Page.convert_main_args ['0'] = 0 ∧
    Page.main_path_match ['P','A','G','E','_','3','\n'] = some ['3'] := by
  decide

/-- C10: validate_positive_integer returns None unchanged for a
non-required parameter, raises click.BadParameter for every non-positive
integer, returns every positive integer unchanged, and returns an integer
unchanged exactly when it is positive. -/
theorem claim_C10 (required : Bool) (value : Option Int) :
    (required = false → value = none →
      validate_positive_integer required value = ValidateResult.ok none) ∧
    (∀ v : Int, value = some v → v ≤ 0 →
      validate_positive_integer required value = ValidateResult.badParameter) ∧
    (∀ v : Int, value = some v → 0 < v →
      validate_positive_integer required value = ValidateResult.ok (some v)) ∧
    (∀ v : Int, validate_positive_integer required value = ValidateResult.ok (some v) ↔
      (value = some v ∧ 0 < v)) := by
  refine ⟨?_, ?_, ?_, ?_⟩
  · rintro rfl rfl
    rfl
  · rintro v rfl hv
    cases required <;> simp [validate_positive_integer, hv]
  · rintro v rfl hv
    cases required <;> simp [validate_positive_integer, hv]
  · intro v
    rcases value with _ | x
    · cases required <;> simp [validate_positive_integer]
    · by_cases hx : x ≤ 0
      · simp [validate_positive_integer, hx]
        rintro rfl
        omega
      · simp [validate_positive_integer, hx]
        rintro rfl
        omega

/-- Witness for C10 at concrete inputs. -/
theorem claim_C10_witness :
    validate_positive_integer false none = ValidateResult.ok none ∧
    validate_positive_integer true (some (-2)) = ValidateResult.badParameter ∧
    validate_positive_integer true (some 3) = ValidateResult.ok (some 3) :=
  ⟨(claim_C10 false none).1 rfl rfl,
    (claim_C10 true (some (-2))).2.1 (-2) rfl (by norm_num),
    (claim_C10 true (some 3)).2.2.1 3 rfl (by norm_num)⟩

/-- C9: the cli group callback exits the process with status 1 for every
platform not mapped to a truthy entry of SUPPORTED_PLATFORMS, and proceeds
(so commands can run) on a supported platform. -/
theorem claim_C9 (supportedPlatforms : String → Option Bool) (platform : String) :
    ((supportedPlatforms platform = none ∨ supportedPlatforms platform = some false) →
      cli supportedPlatforms platform = CliStartup.exitWith 1) ∧
    (supportedPlatforms platform = some true →
      cli supportedPlatforms platform = CliStartup.proceed) := by
  constructor
  · rintro (h | h) <;> simp [cli, h]
  · intro h
    simp [cli, h]

/-- Witness for C9 with a table supporting only Linux. -/
theorem claim_C9_witness :
    cli (fun s => if s = "Linux" then some true else none) "Windows" = CliStartup.exitWith 1 ∧
    cli (fun s => if s = "Linux" then some true else none) "Linux" = CliStartup.proceed :=
  ⟨(claim_C9 (fun s => if s = "Linux" then some true else none) "Windows").1
      (Or.inl (by simp)),
    (claim_C9 (fun s => if s = "Linux" then some true else none) "Linux").2 (by simp)⟩

/-- C5 (amended): when the deactivated version is not disabled,
version_deactivated triggers exactly one BACK navigation if the page's
number equals the deck's current page number, and none otherwise; a
disabled deactivated version never triggers a navigation. -/
theorem claim_C5_amended (number : Nat) (disabled : Bool) (cur : Option Nat) :
    (disabled = false → cur = some number →
      Page.version_deactivated number disabled cur = [NavRequest.back]) ∧
    (cur ≠ some number → Page.version_deactivated number disabled cur = []) ∧
    (disabled = true → Page.version_deactivated number disabled cur = []) := by
  refine ⟨?_, ?_, ?_⟩
  · rintro rfl rfl
    simp [Page.version_deactivated]
  · intro h
    cases disabled <;> simp [Page.version_deactivated, h]
  · rintro rfl
    simp [Page.version_deactivated]

/-- Witness for C5 at concrete inputs. -/
theorem claim_C5_amended_witness :
    Page.version_deactivated 3 false (some 3) = [NavRequest.back] ∧
    Page.version_deactivated 3 false (some 4) = [] ∧
    Page.version_deactivated 3 true (some 3) = [] :=
  ⟨(claim_C5_amended 3 false (some 3)).1 rfl rfl,
    (claim_C5_amended 3 false (some 4)).2.1 (by decide),
    (claim_C5_amended 3 true (some 3)).2.2 rfl⟩

/-- Counterexample to C5 as stated: a disabled version of the current page
is deactivated and no BACK navigation is triggered. -/
theorem claim_C5_counterexample :
    Page.version_deactivated 1 true (some 1) = [] ∧
    ([] : List NavRequest) ≠ [NavRequest.back] := by
  decide

/-- C6 (amended): version_activated navigates to the page's own number
exactly when the version is not disabled, the deck is running, and the
deck's current page number is falsy (None, or the number 0); in every
other case it performs no navigation. -/
theorem claim_C6_amended (number : Nat) (disabled isRunning : Bool) (cur : Option Nat) :
    (Page.version_activated number disabled isRunning cur = [NavRequest.toPage number] ↔
      (disabled = false ∧ isRunning = true ∧ currentPageFalsy cur = true)) ∧
    (disabled = true ∨ isRunning = false ∨ currentPageFalsy cur = false →
      Page.version_activated number disabled isRunning cur = []) := by
  constructor
  · cases disabled <;> cases isRunning <;> cases hcur : currentPageFalsy cur <;>
      simp [Page.version_activated, hcur]
  · intro h
    rcases h with h | h | h
    · subst h
      simp [Page.version_activated]
    · subst h
      cases disabled <;> simp [Page.version_activated]
    · cases disabled <;> simp [Page.version_activated, h]

/-- Witness for C6 at concrete inputs. -/
theorem claim_C6_amended_witness :
    Page.version_activated 2 false true none = [NavRequest.toPage 2] ∧
    Page.version_activated 2 false false none = [] :=
  ⟨(claim_C6_amended 2 false true none).1.mpr ⟨rfl, rfl, rfl⟩,
    (claim_C6_amended 2 false false none).2 (Or.inr (Or.inl rfl))⟩

/-- Counterexample to C6 as stated: a disabled version becoming active
while the deck runs with no current page does not navigate, and a version
becoming active while the deck's current page number is 0 (a set, falsy
number) does navigate. -/
theorem claim_C6_counterexample :
    Page.version_activated 1 true true none = [] ∧
    Page.version_activated 1 false true (some 0) = [NavRequest.toPage 1] := by
  decide

/-- C3: Page.on_file_change ignores events for other directories, stops
with the superclass result whenever that result is not FILE_NOT_AN_EVENT,
and returns None without materializing a child for a Key definition whose
args do not match the active non-None key filter. -/
theorem claim_C3 (selfPath directory : Nat) (superResult : SuperResult)
    (keyFilter : KeyFilter) (entityClassNoneOrKey : Bool) (parsed : ParsedName)
    (argsMatchingFilter : KeyMain → Nat → String → Bool) :
    (directory ≠ selfPath →
      Page.on_file_change selfPath directory superResult keyFilter entityClassNoneOrKey
        parsed argsMatchingFilter = Dispatch.ignoredWrongDir) ∧
    (∀ v, directory = selfPath → superResult = SuperResult.handled v →
      Page.on_file_change selfPath directory superResult keyFilter entityClassNoneOrKey
        parsed argsMatchingFilter = Dispatch.superHandled v) ∧
    (∀ m f, directory = selfPath → superResult = SuperResult.notAnEvent →
      entityClassNoneOrKey = true → parsed.main = some m →
      keyFilter = KeyFilter.active f → argsMatchingFilter m parsed.args f = false →
      Page.on_file_change selfPath directory superResult keyFilter entityClassNoneOrKey
        parsed argsMatchingFilter = Dispatch.filteredOut) := by
  refine ⟨?_, ?_, ?_⟩
  · intro h
    simp [Page.on_file_change, h]
  · rintro v rfl rfl
    simp [Page.on_file_change]
  · rintro m f rfl rfl rfl hm rfl hmatch
    simp [Page.on_file_change, hm, hmatch]

/-- Witness for C3 at concrete inputs. -/
theorem claim_C3_witness :
    Page.on_file_change 0 1 SuperResult.notAnEvent KeyFilter.absent true
      ⟨none, none, none, 0⟩ (fun _ _ _ => false) = Dispatch.ignoredWrongDir ∧
    Page.on_file_change 0 0 (SuperResult.handled (some 7)) KeyFilter.absent true
      ⟨none, none, none, 0⟩ (fun _ _ _ => false) = Dispatch.superHandled (some 7) ∧
    Page.on_file_change 0 0 SuperResult.notAnEvent (KeyFilter.active "night") true
      ⟨none, none, some ⟨2, 3⟩, 4⟩ (fun _ _ _ => false) = Dispatch.filteredOut :=
  ⟨(claim_C3 0 1 SuperResult.notAnEvent KeyFilter.absent true ⟨none, none, none, 0⟩
      (fun _ _ _ => false)).1 (by decide),
    (claim_C3 0 0 (SuperResult.handled (some 7)) KeyFilter.absent true ⟨none, none, none, 0⟩
      (fun _ _ _ => false)).2.1 (some 7) rfl rfl,
    (claim_C3 0 0 SuperResult.notAnEvent (KeyFilter.active "night") true
      ⟨none, none, some ⟨2, 3⟩, 4⟩ (fun _ _ _ => false)).2.2 ⟨2, 3⟩ "night" rfl rfl rfl rfl rfl rfl⟩

/-- C4: an entry is yielded by iter_waiting_references_for_page exactly
when it is an entry of the created page's own waiting queue, or an entry
of the deck's global queue whose referenced page resolves via
deck.find_page to a page with the created page's number. -/
theorem claim_C4 (d : WDeck) (cp : CheckPage) (e : Nat × WaitingRef) :
    e ∈ PageContent.iter_waiting_references_for_page d cp ↔
      ((e.1 = cp.number ∧ e.2 ∈ cp.ownQueue) ∨
        (e.2 ∈ d.deckQueue ∧ d.findPageNumber e.2.refPage = some e.1 ∧
          e.1 = cp.number)) := by
  obtain ⟨pn, w⟩ := e
  simp only [PageContent.iter_waiting_references_for_page, List.mem_append,
    List.mem_map, List.mem_filterMap]
  constructor
  · rintro (⟨x, hx, hxe⟩ | ⟨x, hx, hxe⟩)
    · cases hxe
      exact Or.inl ⟨rfl, hx⟩
    · rcases hfind : d.findPageNumber x.refPage with _ | n <;> rw [hfind] at hxe
      · cases hxe
      · by_cases hn : n = cp.number
        · simp [hn] at hxe
          obtain ⟨rfl, rfl⟩ := hxe
          exact Or.inr ⟨hx, by rw [hfind, hn], rfl⟩
        · simp [hn] at hxe
  · rintro (⟨h1, h2⟩ | ⟨h1, h2, h3⟩)
    · exact Or.inl ⟨w, h2, by rw [h1]⟩
    · refine Or.inr ⟨w, h1, ?_⟩
      rw [h2]
      simp [h3]

theorem renderKeys_mono (p : Nat) :
    ∀ (ks : List ((Nat × Nat) × Nat)) (s : RState),
      s.rendered ⊆ (renderKeys p ks s).rendered := by
  intro ks
  induction ks with
  | nil => intro s; simp [renderKeys]
  | cons kv rest ih =>
    intro s
    obtain ⟨k, img⟩ := kv
    by_cases hk : k ∈ s.rendered
    · simpa [renderKeys, hk] using ih s
    · simp only [renderKeys, if_neg hk]
      exact (Finset.subset_insert _ _).trans
        (ih ⟨insert k s.rendered, s.writes ++ [RWrite.setImage p k img]⟩)

theorem renderKeys_writes (p : Nat) :
    ∀ (ks : List ((Nat × Nat) × Nat)) (s : RState),
      ∃ t, (renderKeys p ks s).writes = s.writes ++ t ∧
        ∀ w ∈ t, RWrite.pageIdx w = p := by
  intro ks
  induction ks with
  | nil => intro s; exact ⟨[], by simp [renderKeys], by simp⟩
  | cons kv rest ih =>
    intro s
    obtain ⟨k, img⟩ := kv
    by_cases hk : k ∈ s.rendered
    · simpa [renderKeys, hk] using ih s
    · obtain ⟨t, ht, hp⟩ := ih ⟨insert k s.rendered, s.writes ++ [RWrite.setImage p k img]⟩
      refine ⟨RWrite.setImage p k img :: t, ?_, ?_⟩
      · simp only [renderKeys, if_neg hk]
        rw [ht]
        simp
      · intro w hw
        rcases List.mem_cons.mp hw with rfl | hw
        · rfl
        · exact hp w hw

theorem renderKeys_rendered_subset (p : Nat) :
    ∀ (ks : List ((Nat × Nat) × Nat)) (s : RState),
      (renderKeys p ks s).rendered ⊆ s.rendered ∪ (ks.map Prod.fst).toFinset := by
  intro ks
  induction ks with
  | nil => intro s; simp [renderKeys]
  | cons kv rest ih =>
    intro s
    obtain ⟨k, img⟩ := kv
    by_cases hk : k ∈ s.rendered
    · simp only [renderKeys, if_pos hk]
      refine (ih s).trans ?_
      intro x hx
      simp only [Finset.mem_union] at hx ⊢
      rcases hx with hx | hx
      · exact Or.inl hx
      · simp only [List.map_cons, List.toFinset_cons, Finset.mem_insert]
        exact Or.inr (Or.inr hx)
    · simp only [renderKeys, if_neg hk]
      refine (ih _).trans ?_
      intro x hx
      simp only [Finset.mem_union, Finset.mem_insert, List.map_cons, List.toFinset_cons] at hx ⊢
      rcases hx with (rfl | hx) | hx
      · exact Or.inr (Or.inl rfl)
      · exact Or.inl hx
      · exact Or.inr (Or.inr hx)

theorem renderKeys_covered (p : Nat) :
    ∀ (ks : List ((Nat × Nat) × Nat)) (s : RState),
      ∀ k ∈ (renderKeys p ks s).rendered,
        k ∈ s.rendered ∨ ∃ w ∈ (renderKeys p ks s).writes, RWrite.key w = k := by
  intro ks
  induction ks with
  | nil => intro s k hk; exact Or.inl (by simpa [renderKeys] using hk)
  | cons kv rest ih =>
    intro s k hk
    obtain ⟨k0, img⟩ := kv
    by_cases h0 : k0 ∈ s.rendered
    · simp only [renderKeys, if_pos h0] at hk ⊢
      exact ih s k hk
    · simp only [renderKeys, if_neg h0] at hk ⊢
      rcases ih _ k hk with hmem | hw
      · rcases Finset.mem_insert.mp hmem with rfl | hmem
        · right
          obtain ⟨t, ht, _⟩ :=
            renderKeys_writes p rest ⟨insert k s.rendered, s.writes ++ [RWrite.setImage p k img]⟩
          refine ⟨RWrite.setImage p k img, ?_, rfl⟩
          rw [ht]
          exact List.mem_append_left _ (List.mem_append_right _ (by simp))
        · exact Or.inl hmem
      · exact Or.inr hw

theorem clearKeys_mono (p : Nat) :
    ∀ (ks : List (Nat × Nat)) (s : RState),
      s.rendered ⊆ (clearKeys p ks s).rendered := by
  intro ks
  induction ks with
  | nil => intro s; simp [clearKeys]
  | cons k rest ih =>
    intro s
    by_cases hk : k ∈ s.rendered
    · simpa [clearKeys, hk] using ih s
    · simp only [clearKeys, if_neg hk]
      exact (Finset.subset_insert _ _).trans
        (ih ⟨insert k s.rendered, s.writes ++ [RWrite.removeImage p k]⟩)

theorem clearKeys_writes (p : Nat) :
    ∀ (ks : List (Nat × Nat)) (s : RState),
      ∃ t, (clearKeys p ks s).writes = s.writes ++ t ∧
        ∀ w ∈ t, RWrite.pageIdx w = p := by
  intro ks
  induction ks with
  | nil => intro s; exact ⟨[], by simp [clearKeys], by simp⟩
  | cons k rest ih =>
    intro s
    by_cases hk : k ∈ s.rendered
    · simpa [clearKeys, hk] using ih s
    · obtain ⟨t, ht, hp⟩ := ih ⟨insert k s.rendered, s.writes ++ [RWrite.removeImage p k]⟩
      refine ⟨RWrite.removeImage p k :: t, ?_, ?_⟩
      · simp only [clearKeys, if_neg hk]
        rw [ht]
        simp
      · intro w hw
        rcases List.mem_cons.mp hw with rfl | hw
        · rfl
        · exact hp w hw

theorem clearKeys_rendered_subset (p : Nat) :
    ∀ (ks : List (Nat × Nat)) (s : RState),
      (clearKeys p ks s).rendered ⊆ s.rendered ∪ ks.toFinset := by
  intro ks
  induction ks with
  | nil => intro s; simp [clearKeys]
  | cons k rest ih =>
    intro s
    by_cases hk : k ∈ s.rendered
    · simp only [clearKeys, if_pos hk]
      refine (ih s).trans ?_
      intro x hx
      simp only [Finset.mem_union, List.toFinset_cons, Finset.mem_insert] at hx ⊢
      tauto
    · simp only [clearKeys, if_neg hk]
      refine (ih _).trans ?_
      intro x hx
      simp only [Finset.mem_union, Finset.mem_insert, List.toFinset_cons] at hx ⊢
      tauto

theorem clearKeys_covered (p : Nat) :
    ∀ (ks : List (Nat × Nat)) (s : RState),
      ∀ k ∈ (clearKeys p ks s).rendered,
        k ∈ s.rendered ∨ ∃ w ∈ (clearKeys p ks s).writes, RWrite.key w = k := by
  intro ks
  induction ks with
  | nil => intro s k hk; exact Or.inl (by simpa [clearKeys] using hk)
  | cons k0 rest ih =>
    intro s k hk
    by_cases h0 : k0 ∈ s.rendered
    · simp only [clearKeys, if_pos h0] at hk ⊢
      exact ih s k hk
    · simp only [clearKeys, if_neg h0] at hk ⊢
      rcases ih _ k hk with hmem | hw
      · rcases Finset.mem_insert.mp hmem with rfl | hmem
        · right
          obtain ⟨t, ht, _⟩ :=
            clearKeys_writes p rest ⟨insert k s.rendered, s.writes ++ [RWrite.removeImage p k]⟩
          refine ⟨RWrite.removeImage p k, ?_, rfl⟩
          rw [ht]
          exact List.mem_append_left _ (List.mem_append_right _ (by simp))
        · exact Or.inl hmem
      · exact Or.inr hw

theorem clearKeys_complete (p : Nat) :
    ∀ (ks : List (Nat × Nat)) (s : RState), ∀ k ∈ ks, k ∈ (clearKeys p ks s).rendered := by
  intro ks
  induction ks with
  | nil => intro s k hk; cases hk
  | cons k0 rest ih =>
    intro s k hk
    rcases List.mem_cons.mp hk with rfl | hk
    · by_cases h0 : k ∈ s.rendered
      · simp only [clearKeys, if_pos h0]
        exact clearKeys_mono p rest s h0
      · simp only [clearKeys, if_neg h0]
        exact clearKeys_mono p rest _ (Finset.mem_insert_self _ _)
    · by_cases h0 : k0 ∈ s.rendered
      · simp only [clearKeys, if_pos h0]
        exact ih s k hk
      · simp only [clearKeys, if_neg h0]
        exact ih _ k hk

theorem mem_gridList_iff (d : VDeck) (k : Nat × Nat) :
    k ∈ gridList d ↔ k ∈ gridSet d := by
  obtain ⟨r, c⟩ := k
  simp only [gridList, gridSet, List.mem_flatMap, List.mem_map, List.mem_range,
    Finset.mem_product, Finset.mem_Icc, Prod.mk.injEq]
  constructor
  · rintro ⟨a, ha, b, hb, h1, h2⟩
    omega
  · rintro ⟨⟨h1, h2⟩, h3, h4⟩
    exact ⟨r - 1, by omega, ⟨c - 1, by omega, by omega, by omega⟩⟩

theorem card_gridSet (d : VDeck) : (gridSet d).card = d.nb_keys := by
  simp [gridSet, VDeck.nb_keys, Nat.card_Icc]

/-- A state whose rendered set lies in the grid and has full cardinality
is exactly the grid. -/
theorem rendered_full (d : VDeck) (s : RState) (hsub : s.rendered ⊆ gridSet d)
    (hcard : s.rendered.card = d.nb_keys) : s.rendered = gridSet d :=
  Finset.eq_of_subset_of_card_le hsub (by rw [card_gridSet, hcard])

/-- Composition step for write coverage of rendered keys. -/
theorem covered_step (a b c : RState)
    (h1 : ∀ k ∈ b.rendered, k ∈ a.rendered ∨ ∃ w ∈ b.writes, RWrite.key w = k)
    (h2 : ∃ t, c.writes = b.writes ++ t)
    (h3 : ∀ k ∈ c.rendered, k ∈ b.rendered ∨ ∃ w ∈ c.writes, RWrite.key w = k) :
    ∀ k ∈ c.rendered, k ∈ a.rendered ∨ ∃ w ∈ c.writes, RWrite.key w = k := by
  intro k hk
  rcases h3 k hk with hb | hw
  · rcases h1 k hb with ha | ⟨w, hwb, hkey⟩
    · exact Or.inl ha
    · obtain ⟨t, ht⟩ := h2
      exact Or.inr ⟨w, by rw [ht]; exact List.mem_append_left _ hwb, hkey⟩
  · exact Or.inr hw

/-- Master invariant of Page.render, proved by strong induction on the
termination measure: the incoming rendered set only grows, writes are only
appended, every newly rendered key carries a device write, the rendered
set stays inside the grid for in-grid configurations, and a call with
render_below on a visible page resolves the whole grid. -/
theorem render_master (d : VDeck) :
    ∀ (n i : Nat) (ra rb : Bool) (s? : Option RState),
      (if ra = true then i else 0) + (if rb = true then d.chain.length - i else 0) < n →
      ((s?.getD ⟨∅, []⟩).rendered ⊆ (Page.render d i ra rb s?).rendered ∧
        (∃ t, (Page.render d i ra rb s?).writes = (s?.getD ⟨∅, []⟩).writes ++ t) ∧
        (∀ k ∈ (Page.render d i ra rb s?).rendered,
          k ∈ (s?.getD ⟨∅, []⟩).rendered ∨
            ∃ w ∈ (Page.render d i ra rb s?).writes, RWrite.key w = k) ∧
        (inGrid d → (s?.getD ⟨∅, []⟩).rendered ⊆ gridSet d →
          (Page.render d i ra rb s?).rendered ⊆ gridSet d) ∧
        (inGrid d → (s?.getD ⟨∅, []⟩).rendered ⊆ gridSet d → rb = true →
          i < d.chain.length → gridSet d ⊆ (Page.render d i ra rb s?).rendered)) := by
  intro n
  induction n with
  | zero => intro i ra rb s? hm; exact absurd hm (Nat.not_lt_zero _)
  | succ n ih =>
    intro i ra rb s? hm
    set S0 : RState := s?.getD ⟨∅, []⟩ with hS0def
    by_cases hvis : i < d.chain.length
    swap
    · have hr : Page.render d i ra rb s? = S0 := by
        rw [Page.render.eq_def]
        simp only [← hS0def, dif_neg hvis]
      rw [hr]
      exact ⟨Finset.Subset.refl _, ⟨[], by simp⟩, fun k hk => Or.inl hk,
        fun _ h => h, fun _ _ _ hlt => absurd hlt hvis⟩
    · by_cases hearly : s?.isSome = true ∧ S0.rendered.card = d.nb_keys
      · have hr : Page.render d i ra rb s? = S0 := by
          rw [Page.render.eq_def]
          simp only [← hS0def, dif_pos hvis, if_pos hearly]
        rw [hr]
        refine ⟨Finset.Subset.refl _, ⟨[], by simp⟩, fun k hk => Or.inl hk, fun _ h => h,
          fun hg hsub _ _ => ?_⟩
        rw [rendered_full d S0 hsub hearly.2]
      · set S1 : RState :=
          (if hab : ra = true ∧ 0 < i then Page.render d (i - 1) true false (some S0) else S0)
          with hS1def
        have hS1 : S0.rendered ⊆ S1.rendered ∧ (∃ t, S1.writes = S0.writes ++ t) ∧
            (∀ k ∈ S1.rendered, k ∈ S0.rendered ∨ ∃ w ∈ S1.writes, RWrite.key w = k) ∧
            (inGrid d → S0.rendered ⊆ gridSet d → S1.rendered ⊆ gridSet d) := by
          rw [hS1def]
          by_cases hab : ra = true ∧ 0 < i
          · rw [dif_pos hab]
            have hm' := hm
            rw [if_pos hab.1] at hm'
            have hmeas1 : (if (true : Bool) = true then i - 1 else 0) +
                (if (false : Bool) = true then d.chain.length - (i - 1) else 0) < n := by
              rw [if_pos rfl, if_neg (by simp)]
              omega
            have ih1 := ih (i - 1) true false (some S0) hmeas1
            simp only [Option.getD_some] at ih1
            exact ⟨ih1.1, ih1.2.1, ih1.2.2.1, ih1.2.2.2.1⟩
          · rw [dif_neg hab]
            exact ⟨Finset.Subset.refl _, ⟨[], by simp⟩, fun k hk => Or.inl hk, fun _ h => h⟩
        set S2 : RState := renderKeys i d.chain[i].keys S1 with hS2def
        have hchainmem : d.chain[i] ∈ d.chain := List.getElem_mem hvis
        have hS2 : S0.rendered ⊆ S2.rendered ∧ (∃ t, S2.writes = S0.writes ++ t) ∧
            (∀ k ∈ S2.rendered, k ∈ S0.rendered ∨ ∃ w ∈ S2.writes, RWrite.key w = k) ∧
            (inGrid d → S0.rendered ⊆ gridSet d → S2.rendered ⊆ gridSet d) := by
          obtain ⟨t2, ht2, _⟩ := renderKeys_writes i d.chain[i].keys S1
          refine ⟨hS1.1.trans (by rw [hS2def]; exact renderKeys_mono i _ S1), ?_, ?_, ?_⟩
          · obtain ⟨t1, ht1⟩ := hS1.2.1
            refine ⟨t1 ++ t2, ?_⟩
            rw [hS2def, ht2, ht1, List.append_assoc]
          · refine covered_step S0 S1 S2 hS1.2.2.1 ⟨t2, by rw [hS2def, ht2]⟩ ?_
            rw [hS2def]
            exact renderKeys_covered i _ S1
          · intro hg hsub
            rw [hS2def]
            refine (renderKeys_rendered_subset i _ S1).trans ?_
            intro x hx
            rcases Finset.mem_union.mp hx with hx | hx
            · exact hS1.2.2.2 hg hsub hx
            · simp only [List.mem_toFinset, List.mem_map] at hx
              obtain ⟨kv, hkv, rfl⟩ := hx
              exact hg d.chain[i] hchainmem kv hkv
        by_cases hcard : S2.rendered.card = d.nb_keys
        · have hr : Page.render d i ra rb s? = S2 := by
            rw [Page.render.eq_def]
            simp only [← hS0def, dif_pos hvis, if_neg hearly, ← hS1def, ← hS2def,
              if_pos hcard]
          rw [hr]
          refine ⟨hS2.1, hS2.2.1, hS2.2.2.1, fun hg hsub => hS2.2.2.2 hg hsub,
            fun hg hsub _ _ => ?_⟩
          rw [rendered_full d S2 (hS2.2.2.2 hg hsub) hcard]
        · by_cases hrb : rb = true
          · by_cases hbe : d.chain[i].transparent = true ∧ i + 1 < d.chain.length
            · have hr : Page.render d i ra rb s? =
                  Page.render d (i + 1) false true (some S2) := by
                rw [Page.render.eq_def]
                simp only [← hS0def, dif_pos hvis, if_neg hearly, ← hS1def, ← hS2def,
                  if_neg hcard, dif_pos hrb, dif_pos hbe]
              have hm' := hm
              rw [if_pos hrb] at hm'
              have hmeas2 : (if (false : Bool) = true then i + 1 else 0) +
                  (if (true : Bool) = true then d.chain.length - (i + 1) else 0) < n := by
                rw [if_pos rfl, if_neg (by simp)]
                omega
              have ih2 := ih (i + 1) false true (some S2) hmeas2
              simp only [Option.getD_some] at ih2
              rw [hr]
              refine ⟨hS2.1.trans ih2.1, ?_, ?_, ?_, ?_⟩
              · obtain ⟨t1, ht1⟩ := hS2.2.1
                obtain ⟨t2, ht2⟩ := ih2.2.1
                exact ⟨t1 ++ t2, by rw [ht2, ht1, List.append_assoc]⟩
              · exact covered_step S0 S2 _ hS2.2.2.1 ih2.2.1 ih2.2.2.1
              · intro hg hsub
                exact ih2.2.2.2.1 hg (hS2.2.2.2 hg hsub)
              · intro hg hsub _ _
                exact ih2.2.2.2.2 hg (hS2.2.2.2 hg hsub) (by trivial) hbe.2
            · have hr : Page.render d i ra rb s? = clearKeys i (gridList d) S2 := by
                rw [Page.render.eq_def]
                simp only [← hS0def, dif_pos hvis, if_neg hearly, ← hS1def, ← hS2def,
                  if_neg hcard, dif_pos hrb, dif_neg hbe]
              rw [hr]
              obtain ⟨t3, ht3, _⟩ := clearKeys_writes i (gridList d) S2
              refine ⟨?_, ?_, ?_, ?_, ?_⟩
              · exact hS2.1.trans (clearKeys_mono i _ S2)
              · obtain ⟨t1, ht1⟩ := hS2.2.1
                exact ⟨t1 ++ t3, by rw [ht3, ht1, List.append_assoc]⟩
              · exact covered_step S0 S2 _ hS2.2.2.1 ⟨t3, ht3⟩ (clearKeys_covered i _ S2)
              · intro hg hsub
                refine (clearKeys_rendered_subset i _ S2).trans ?_
                intro x hx
                rcases Finset.mem_union.mp hx with hx | hx
                · exact hS2.2.2.2 hg hsub hx
                · rw [List.mem_toFinset] at hx
                  exact (mem_gridList_iff d x).mp hx
              · intro hg hsub _ _ k hk
                exact clearKeys_complete i (gridList d) S2 k ((mem_gridList_iff d k).mpr hk)
          · have hr : Page.render d i ra rb s? = S2 := by
              rw [Page.render.eq_def]
              simp only [← hS0def, dif_pos hvis, if_neg hearly, ← hS1def, ← hS2def,
                if_neg hcard, dif_neg hrb]
            rw [hr]
            exact ⟨hS2.1, hS2.2.1, hS2.2.2.1, fun hg hsub => hS2.2.2.2 hg hsub,
              fun _ _ hrb' _ => absurd hrb' hrb⟩

/-- C1: compositor completeness. After Page.render completes on a visible
page of the chain with render_above and render_below (the top-level call,
rendered_keys = None), every physical key (row, col) of the grid is in the
rendered set and carries a device write: an image set by some page of the
chain or an explicit clear via deck.remove_image. -/
theorem claim_C1 (d : VDeck) (i : Nat) (hvis : i < d.chain.length) (hg : inGrid d)
    (r c : Nat) (hr1 : 1 ≤ r) (hr2 : r ≤ d.nb_rows) (hc1 : 1 ≤ c) (hc2 : c ≤ d.nb_cols) :
    (r, c) ∈ (Page.render d i true true none).rendered ∧
      ∃ w ∈ (Page.render d i true true none).writes, RWrite.key w = (r, c) := by
  have hmem : (r, c) ∈ gridSet d := by
    simp only [gridSet, Finset.mem_product, Finset.mem_Icc]
    omega
  have hmaster := render_master d (i + d.chain.length + 1) i true true none
    (by simp; omega)
  simp only [Option.getD_none] at hmaster
  have hempty : (⟨∅, []⟩ : RState).rendered ⊆ gridSet d := by
    intro x hx
    exact absurd hx (Finset.not_mem_empty x)
  have hin : (r, c) ∈ (Page.render d i true true none).rendered :=
    hmaster.2.2.2.2 hg hempty (by trivial) hvis hmem
  refine ⟨hin, ?_⟩
  rcases hmaster.2.2.1 (r, c) hin with h | h
  · exact absurd h (Finset.not_mem_empty _)
  · exact h

/-- Witness for C1 on a 1x2 grid with a single transparent page defining
only key (1,1): key (1,2) still ends rendered, with a write. -/
theorem claim_C1_witness :
    (1, 2) ∈ (Page.render ⟨1, 2, [⟨[((1, 1), 5)], true⟩]⟩ 0 true true none).rendered ∧
      ∃ w ∈ (Page.render ⟨1, 2, [⟨[((1, 1), 5)], true⟩]⟩ 0 true true none).writes,
        RWrite.key w = (1, 2) :=
  claim_C1 ⟨1, 2, [⟨[((1, 1), 5)], true⟩]⟩ 0 (by simp) (by decide)
    1 2 (by decide) (by decide) (by decide) (by decide)

/-- In an upward render pass (render_below = false), every issued write
either came in with the state or was issued by a page at chain index at
most the pass's starting index. -/
theorem render_up_pageIdx (d : VDeck) :
    ∀ (n i : Nat) (ra : Bool) (s? : Option RState),
      (if ra = true then i else 0) < n →
      ∀ w ∈ (Page.render d i ra false s?).writes,
        w ∈ (s?.getD ⟨∅, []⟩).writes ∨ RWrite.pageIdx w ≤ i := by
  intro n
  induction n with
  | zero => intro i ra s? hm; exact absurd hm (Nat.not_lt_zero _)
  | succ n ih =>
    intro i ra s? hm
    set S0 : RState := s?.getD ⟨∅, []⟩ with hS0def
    by_cases hvis : i < d.chain.length
    swap
    · have hr : Page.render d i ra false s? = S0 := by
        rw [Page.render.eq_def]
        simp only [← hS0def, dif_neg hvis]
      rw [hr]
      exact fun w hw => Or.inl hw
    · by_cases hearly : s?.isSome = true ∧ S0.rendered.card = d.nb_keys
      · have hr : Page.render d i ra false s? = S0 := by
          rw [Page.render.eq_def]
          simp only [← hS0def, dif_pos hvis, if_pos hearly]
        rw [hr]
        exact fun w hw => Or.inl hw
      · set S1 : RState :=
          (if hab : ra = true ∧ 0 < i then Page.render d (i - 1) true false (some S0) else S0)
          with hS1def
        have hS1w : ∀ w ∈ S1.writes, w ∈ S0.writes ∨ RWrite.pageIdx w ≤ i := by
          rw [hS1def]
          by_cases hab : ra = true ∧ 0 < i
          · rw [dif_pos hab]
            intro w hw
            have hm' := hm
            rw [if_pos hab.1] at hm'
            rcases ih (i - 1) true (some S0) (by rw [if_pos rfl]; omega) w hw with h | h
            · exact Or.inl (by simpa using h)
            · exact Or.inr (by omega)
          · rw [dif_neg hab]
            exact fun w hw => Or.inl hw
        set S2 : RState := renderKeys i d.chain[i].keys S1 with hS2def
        have hS2w : ∀ w ∈ S2.writes, w ∈ S0.writes ∨ RWrite.pageIdx w ≤ i := by
          obtain ⟨t, ht, hp⟩ := renderKeys_writes i d.chain[i].keys S1
          rw [hS2def, ht]
          intro w hw
          rcases List.mem_append.mp hw with hw | hw
          · exact hS1w w hw
          · exact Or.inr (le_of_eq (hp w hw))
        by_cases hcard : S2.rendered.card = d.nb_keys
        · have hr : Page.render d i ra false s? = S2 := by
            rw [Page.render.eq_def]
            simp only [← hS0def, dif_pos hvis, if_neg hearly, ← hS1def, ← hS2def,
              if_pos hcard]
          rw [hr]
          exact hS2w
        · have hr : Page.render d i ra false s? = S2 := by
            rw [Page.render.eq_def]
            simp only [← hS0def, dif_pos hvis, if_neg hearly, ← hS1def, ← hS2def,
              if_neg hcard]
            rw [dif_neg (by simp)]
          rw [hr]
          exact hS2w

/-- C2: a page with zero transparency stops the overlay chain immediately
after rendering its own keys: whatever the render flags and incoming
state, every device write added by rendering an opaque page is issued by
that page or a page above it in the chain (no page further along the
chain contributes any key image), the remaining keys being cleared by the
page itself. -/
theorem claim_C2 (d : VDeck) (i : Nat) (ra rb : Bool) (s? : Option RState)
    (hvis : i < d.chain.length) (htr : d.chain[i].transparent = false) :
    ∀ w ∈ (Page.render d i ra rb s?).writes,
      w ∈ (s?.getD ⟨∅, []⟩).writes ∨ RWrite.pageIdx w ≤ i := by
  set S0 : RState := s?.getD ⟨∅, []⟩ with hS0def
  by_cases hearly : s?.isSome = true ∧ S0.rendered.card = d.nb_keys
  · have hr : Page.render d i ra rb s? = S0 := by
      rw [Page.render.eq_def]
      simp only [← hS0def, dif_pos hvis, if_pos hearly]
    rw [hr]
    exact fun w hw => Or.inl hw
  · set S1 : RState :=
      (if hab : ra = true ∧ 0 < i then Page.render d (i - 1) true false (some S0) else S0)
      with hS1def
    have hS1w : ∀ w ∈ S1.writes, w ∈ S0.writes ∨ RWrite.pageIdx w ≤ i := by
      rw [hS1def]
      by_cases hab : ra = true ∧ 0 < i
      · rw [dif_pos hab]
        intro w hw
        rcases render_up_pageIdx d i (i - 1) true (some S0)
            (by rw [if_pos rfl]; exact Nat.sub_lt hab.2 Nat.one_pos) w hw with h | h
        · exact Or.inl (by simpa using h)
        · exact Or.inr (by omega)
      · rw [dif_neg hab]
        exact fun w hw => Or.inl hw
    set S2 : RState := renderKeys i d.chain[i].keys S1 with hS2def
    have hS2w : ∀ w ∈ S2.writes, w ∈ S0.writes ∨ RWrite.pageIdx w ≤ i := by
      obtain ⟨t, ht, hp⟩ := renderKeys_writes i d.chain[i].keys S1
      rw [hS2def, ht]
      intro w hw
      rcases List.mem_append.mp hw with hw | hw
      · exact hS1w w hw
      · exact Or.inr (le_of_eq (hp w hw))
    have hbe : ¬ (d.chain[i].transparent = true ∧ i + 1 < d.chain.length) := by
      rintro ⟨h, _⟩
      rw [htr] at h
      cases h
    by_cases hcard : S2.rendered.card = d.nb_keys
    · have hr : Page.render d i ra rb s? = S2 := by
        rw [Page.render.eq_def]
        simp only [← hS0def, dif_pos hvis, if_neg hearly, ← hS1def, ← hS2def,
          if_pos hcard]
      rw [hr]
      exact hS2w
    · by_cases hrb : rb = true
      · have hr : Page.render d i ra rb s? = clearKeys i (gridList d) S2 := by
          rw [Page.render.eq_def]
          simp only [← hS0def, dif_pos hvis, if_neg hearly, ← hS1def, ← hS2def,
            if_neg hcard, dif_pos hrb, dif_neg hbe]
        rw [hr]
        obtain ⟨t, ht, hp⟩ := clearKeys_writes i (gridList d) S2
        rw [ht]
        intro w hw
        rcases List.mem_append.mp hw with hw | hw
        · exact hS2w w hw
        · exact Or.inr (le_of_eq (hp w hw))
      · have hr : Page.render d i ra rb s? = S2 := by
          rw [Page.render.eq_def]
          simp only [← hS0def, dif_pos hvis, if_neg hearly, ← hS1def, ← hS2def,
            if_neg hcard, dif_neg hrb]
        rw [hr]
        exact hS2w

/-- Witness for C2 on a two-page chain whose top page is opaque: every
write of the full top-level render is issued by the top page. -/
theorem claim_C2_witness :
    ((Page.render ⟨1, 1, [⟨[((1, 1), 5)], false⟩, ⟨[((1, 1), 9)], true⟩]⟩
        0 true true none).writes.all fun w => RWrite.pageIdx w ≤ 0) = true := by
  have h := claim_C2 ⟨1, 1, [⟨[((1, 1), 5)], false⟩, ⟨[((1, 1), 9)], true⟩]⟩ 0
    true true none (by simp) (by decide)
  simp only [List.all_eq_true, decide_eq_true_eq]
  intro w hw
  rcases h w hw with hmem | hle
  · exact absurd (by simpa using hmem) (List.not_mem_nil w)
  · exact hle

theorem applyWrites_concat (a : Nat × Nat → Option Nat) (ws : List RWrite) (w : RWrite) :
    applyWrites a (ws ++ [w]) =
      fun k => if k = RWrite.key w then RWrite.content w else applyWrites a ws k := by
  simp [applyWrites, List.foldl_append]

/-- Applying a write list reads off the last write touching each key. -/
theorem applyWrites_eval (ws : List RWrite) :
    ∀ (a : Nat × Nat → Option Nat) (k : Nat × Nat),
      applyWrites a ws k =
        ((ws.reverse.find? fun w => RWrite.key w == k).map RWrite.content).getD (a k) := by
  induction ws using List.reverseRecOn with
  | nil => intro a k; simp [applyWrites]
  | append_singleton ws w ih =>
    intro a k
    simp only [applyWrites_concat]
    by_cases hk : k = RWrite.key w
    · rw [if_pos hk, List.reverse_append]
      simp only [List.reverse_cons, List.reverse_nil, List.nil_append, List.singleton_append]
      rw [List.find?_cons_of_pos _ (by simp [hk])]
      rfl
    · rw [if_neg hk, List.reverse_append]
      simp only [List.reverse_cons, List.reverse_nil, List.nil_append, List.singleton_append]
      rw [List.find?_cons_of_neg _ (by simpa using fun h => absurd h.symm hk)]
      exact ih a k

/-- Applying the same write list twice leaves the assignment of the first
application unchanged. -/
theorem applyWrites_idem (ws : List RWrite) (a : Nat × Nat → Option Nat) :
    applyWrites (applyWrites a ws) ws = applyWrites a ws := by
  funext k
  rw [applyWrites_eval ws (applyWrites a ws) k, applyWrites_eval ws a k]
  cases hf : ws.reverse.find? fun w => RWrite.key w == k with
  | none => simp
  | some w => simp

/-- C7: re-rendering is idempotent. The writes of a render are a pure
function of the unchanged entity state, so a second invocation issues the
same writes, and applying them again yields the same final key-to-image
assignment as applying them once. -/
theorem claim_C7 (d : VDeck) (i : Nat) (a : Nat × Nat → Option Nat) :
    applyWrites (applyWrites a (Page.render d i true true none).writes)
        (Page.render d i true true none).writes =
      applyWrites a (Page.render d i true true none).writes :=
  applyWrites_idem (Page.render d i true true none).writes a
